import Mathlib

/-!
Verification of the frogfs asset-preprocessing tool (`tools/preprocess.py`).

We give a shallow embedding of the pure core of the script: glob matching
(Python `fnmatch` restricted to patterns without bracket classes, which is
all the rule tables here use), the rule-resolution functions
`get_preprocessors`, `get_flags`, `get_compressor`, the `pattern_sort`
comparator together with a model of Python's stable `sorted`, the
state-file row (de)serialization of `save_state`/`load_state`, the path
normalization of `build_state`, and the snapshot reconciliation performed
by `main`.

Python dictionaries are modelled as association lists with Python's
assignment semantics (updating an existing key keeps its position; a new
key is appended), strings are handled at the `List Char` level so that all
definitions reduce in the kernel, and modification times are modelled by
integers (the code only ever compares them with `<` and `=`, and the CSV
round trip of a timestamp is exact).  Filesystem walking, subprocess
execution and the `used_preprocessors` provisioning set are I/O side
effects that no claim depends on; only the pure computations they feed are
embedded.
-/

namespace Frogfs

/-! ### Character-level string helpers (models of Python str operations) -/

/-- Model of Python `s.startswith(pre)`, at the character-list level. -/
def isPrefixChars : List Char → List Char → Bool
  | [], _ => true
  | _ :: _, [] => false
  | p :: ps, c :: cs => p == c && isPrefixChars ps cs

/-- Model of Python `s.startswith(pre)` on strings. -/
def pyStartswith (s pre : String) : Bool := isPrefixChars pre.data s.data

/-- Model of Python slicing `s[n:]` (character based). -/
def pyDrop (s : String) (n : Nat) : String := ⟨s.data.drop n⟩

/-- Model of Python `s.replace(a, b)` for single-character `a`, `b`. -/
def pyReplaceChar (a b : Char) (s : String) : String :=
  ⟨s.data.map (fun c => if c == a then b else c)⟩

/-- Model of Python `s.lstrip(c)` for a single-character strip set. -/
def pyLstrip (c : Char) (s : String) : String := ⟨s.data.dropWhile (· == c)⟩

/-- Model of Python `sep.join(l)` at the character-list level. -/
def joinChars (sep : Char) : List (List Char) → List Char
  | [] => []
  | [x] => x
  | x :: xs => x ++ sep :: joinChars sep xs

/-- Model of Python `s.split(sep)` at the character-list level
(`split` on an empty string yields `[""]`, as in Python). -/
def splitChars (sep : Char) : List Char → List (List Char)
  | [] => [[]]
  | c :: cs =>
    if c == sep then [] :: splitChars sep cs
    else
      match splitChars sep cs with
      | [] => [[c]]
      | h :: t => (c :: h) :: t

/-- Model of Python `','.join(l)` on strings. -/
def joinComma (l : List String) : String := ⟨joinChars ',' (l.map (·.data))⟩

/-- Model of Python `s.split(',')` on strings. -/
def splitComma (s : String) : List String :=
  (splitChars ',' s.data).map (fun cs => ⟨cs⟩)

/-- Model of Python lexicographic `<` on strings (by code point). -/
def lexLt : List Char → List Char → Bool
  | [], [] => false
  | [], _ :: _ => true
  | _ :: _, [] => false
  | a :: as, b :: bs => a < b || (a == b && lexLt as bs)

/-! ### Glob matching

Model of Python `fnmatch.fnmatch(name, pattern)` on a POSIX system
(`normcase` is the identity), for patterns that do not use bracket
classes: `*` matches any (possibly empty) character sequence, including
across `/`, and `?` matches exactly one character.  All patterns occurring
in the frogfs rule tables are of this form. -/

/-- Star matching: try `f` on every suffix of the string. -/
def tryTails (f : List Char → Bool) : List Char → Bool
  | [] => f []
  | c :: cs => f (c :: cs) || tryTails f cs

/-- Glob matching at the character-list level: pattern, then name. -/
def globMatch : List Char → List Char → Bool
  | [], s => s.isEmpty
  | '*' :: ps, s => tryTails (globMatch ps) s
  | '?' :: ps, s =>
    match s with
    | [] => false
    | _ :: cs => globMatch ps cs
  | p :: ps, s =>
    match s with
    | [] => false
    | c :: cs => p == c && globMatch ps cs

/-- Model of `fnmatch(path, pattern)` as called by the script
(the path is the first argument, the glob pattern the second). -/
def fnmatch (path pattern : String) : Bool := globMatch pattern.data path.data

/-! ### Rules and Python-dict association lists -/

/-- One filter rule: a glob pattern together with its ordered action
token list (one entry of `config['filters']`). -/
structure Rule where
  pattern : String
  actions : List String
deriving DecidableEq, Repr

/-- Python dict assignment `d[k] = v`: updating an existing key keeps its
insertion position, a new key is appended at the end. -/
def dictSet {β : Type} (d : List (String × β)) (k : String) (v : β) :
    List (String × β) :=
  if d.any (fun e => e.1 == k) then
    d.map (fun e => if e.1 == k then (k, v) else e)
  else d ++ [(k, v)]

/-- Python `del d[k]` (no-op when the key is absent, matching the
`try: del ... except: pass` in the source). -/
def dictDel {β : Type} (d : List (String × β)) (k : String) :
    List (String × β) :=
  d.filter (fun e => e.1 != k)

/-! ### Rule resolution: get_preprocessors, get_flags, get_compressor -/

/-- Processing of one action token by the inner loop of
`get_preprocessors`.  The source sets `preprocessors[action] = None`
(enable) or deletes the key (disable), and afterwards unconditionally
executes `preprocessors[action] = enable`; the two consecutive
assignments of the enable branch are modelled as one `dictSet` (identical
key order and final value).  `pre` is the list of declared preprocessor
names, the keys of `config['preprocessors']`. -/
def procPrepAction (pre : List String) (d : List (String × Bool))
    (action : String) : List (String × Bool) :=
  let enable := !pyStartswith action "no-"
  let action := if !enable then pyDrop action 3 else action
  if pre.contains action then
    if enable then dictSet d action true
    else dictSet (dictDel d action) action false
  else d

/-- Loop of `get_preprocessors` over the (pre-sorted) filter table,
threading the ordered accumulator dict.  The `skip-preprocessing` test is
performed for every rule reached in iteration order, outside the
`fnmatch` guard, exactly as in the source; `tuple(preprocessors)` takes
the keys of the dict. -/
def gpLoop (pre : List String) (path : String) :
    List Rule → List (String × Bool) → List String
  | [], d => d.map (·.1)
  | r :: rs, d =>
    let d := if fnmatch path r.pattern then
        r.actions.foldl (procPrepAction pre) d
      else d
    if r.actions.contains "skip-preprocessing" then []
    else gpLoop pre path rs d

/-- Embedding of `get_preprocessors(path)`; `pre` is the list of declared
preprocessor names and `filters` the sorted filter table. -/
def get_preprocessors (pre : List String) (filters : List Rule)
    (path : String) : List String :=
  gpLoop pre path filters []

/-- Processing of one action token by the inner loop of `get_flags`. -/
def procFlagAction (d : List (String × Bool)) (action : String) :
    List (String × Bool) :=
  let enable := !pyStartswith action "no-"
  let action := if !enable then pyDrop action 3 else action
  if action == "cache" || action == "discard" || action == "skip" then
    dictSet d action enable
  else d

/-- Embedding of `get_flags(path)`: the returned value is the ordered
flag dict (name ↦ enabled). -/
def get_flags (filters : List Rule) (path : String) :
    List (String × Bool) :=
  filters.foldl
    (fun d r =>
      if fnmatch path r.pattern then r.actions.foldl procFlagAction d
      else d)
    []

/-- Processing of one action token by the inner loop of
`get_compressor`. -/
def procCompAction (comp action : String) : String :=
  if action == "gzip" || action == "heatshrink" || action == "uncompressed"
  then action else comp

/-- Embedding of `get_compressor(path)`. -/
def get_compressor (filters : List Rule) (path : String) : String :=
  filters.foldl
    (fun comp r =>
      if fnmatch path r.pattern then r.actions.foldl procCompAction comp
      else comp)
    "uncompressed"

/-! ### Pattern sorting (pattern_sort and Python sorted) -/

/-- Embedding of `pattern_sort.__lt__`: the comparator used to sort the
filter table at configuration-load time. -/
def patternLt (p q : String) : Bool :=
  if p == "*" then false
  else if q == "*" then true
  else if pyStartswith p "*" && !pyStartswith q "*" then false
  else if !pyStartswith p "*" && pyStartswith q "*" then true
  else lexLt p.data q.data

/-- Stable insertion into a sorted list: the new element goes after every
element it is not strictly less than. -/
def stableInsert {α : Type} (lt : α → α → Bool) (x : α) :
    List α → List α
  | [] => [x]
  | y :: ys => if lt x y then x :: y :: ys else y :: stableInsert lt x ys

/-- Model of Python's stable `sorted` with comparator `lt`.  Python's
Timsort is a stable sort driven solely by `__lt__`; for a comparator that
is a strict weak order (as `pattern_sort`'s is, see the lemmas below) a
stable sort's output is uniquely determined, so stable insertion sort is
an exact model. -/
def pySorted {α : Type} (lt : α → α → Bool) (l : List α) : List α :=
  l.foldl (fun acc x => stableInsert lt x acc) []

/-- Embedding of the sorting of `config['filters']` performed by
`load_config`. -/
def sortFilters (filters : List Rule) : List Rule :=
  pySorted (fun a b => patternLt a.pattern b.pattern) filters

/-! ### Snapshot entries and the state file -/

/-- One snapshot entry, as stored per path by `build_state` and
`load_state`: the entry kind (`"dir"` or `"file"`), the modification
time, and the resolved flags, preprocessor sequence and compressor.
Modification times are modelled by integers (the code only compares them
and copies them through an exact CSV round trip); `flags` and
`preprocessors` are the name sequences that `','.join` serializes (for a
freshly built entry `flags` holds the keys of the `get_flags` dict, in
order). -/
structure Entry where
  type : String
  mtime : Int
  flags : List String
  preprocessors : List String
  compressor : String
deriving DecidableEq, Repr

/-- One row of the `.state` CSV file, after the quoting layer: the
`csv` module with `QUOTE_NONNUMERIC` writes and reads each field of
`save_state`'s row tuple losslessly, so a row is modelled as the field
tuple itself. -/
structure Row where
  path : String
  type : String
  mtime : Int
  flags : String
  preprocessors : String
  compressor : String
deriving DecidableEq, Repr

/-- Row written by `save_state` for one state entry: flags and
preprocessor names are comma-joined. -/
def saveRow (pe : String × Entry) : Row :=
  { path := pe.1, type := pe.2.type, mtime := pe.2.mtime,
    flags := joinComma pe.2.flags,
    preprocessors := joinComma pe.2.preprocessors,
    compressor := pe.2.compressor }

/-- Entry parsed by `load_state` from one row: an empty joined field
deserializes to the empty sequence (`() if not ... else tuple(...)`),
otherwise the field is split on commas. -/
def loadRow (r : Row) : String × Entry :=
  (r.path,
   { type := r.type, mtime := r.mtime,
     preprocessors :=
       if r.preprocessors == "" then [] else splitComma r.preprocessors,
     flags := if r.flags == "" then [] else splitComma r.flags,
     compressor := r.compressor })

/-- Embedding of `save_state`: one row per state entry, in state
(dict insertion) order.  The `.config` file written afterwards only
copies compressor parameters and is not modelled. -/
def save_state (st : List (String × Entry)) : List Row := st.map saveRow

/-- Embedding of `load_state`: rows are read in file order into a fresh
dict. -/
def load_state (rows : List Row) : List (String × Entry) :=
  rows.foldl (fun st r => dictSet st (loadRow r).1 (loadRow r).2) []

/-! ### Path normalization in build_state -/

/-- Snapshot key computed by `build_state` for a directory from its
root-relative path (`os.path.relpath(dir, src_dir)`): backslashes become
slashes, then every leading `'.'` and every leading `'/'` character is
stripped. -/
def reldirKey (relpath : String) : String :=
  pyLstrip '/' (pyLstrip '.' (pyReplaceChar '\\' '/' relpath))

/-- Snapshot key computed by `build_state` for a file from its parent's
(already normalized) key and its name: `os.path.join`, backslash
normalization, then leading `'/'` characters stripped. -/
def relfileKey (reldir file : String) : String :=
  pyLstrip '/'
    (pyReplaceChar '\\' '/' (if reldir == "" then file else reldir ++ "/" ++ file))

/-- Modelled from the spec: the snapshot key is the root-relative
forward-slash path with only a leading `"./"` or `"/"` removed and the
path otherwise unaltered. -/
def specReldirKey (relpath : String) : String :=
  let s := pyReplaceChar '\\' '/' relpath
  if pyStartswith s "./" then pyDrop s 2
  else if pyStartswith s "/" then pyDrop s 1
  else s

/-! ### Reconciliation (main) -/

/-- Modification test of `main`'s compare loop: the entry kind differs,
or the preprocessor sequences differ, or the old modification time is
strictly below the new one. -/
def modCond (eo en : Entry) : Bool :=
  eo.type != en.type || eo.preprocessors != en.preprocessors ||
    decide (eo.mtime < en.mtime)

/-- Python dict lookup `st[p]` (the states are dicts, so keys are
unique; lookup returns the first binding). -/
def lookupEntry (st : List (String × Entry)) (p : String) : Option Entry :=
  (st.find? (fun pe => pe.1 == p)).map (·.2)

/-- Outcome of one `main` run after the states are built: the three
diff sets and whether `save_state` runs.  `deletePaths` drives
destination removals, `copyPaths` and `modifyPaths` drive
`preprocess` calls (destination writes, with a prior removal for
modified paths), and the new state is persisted exactly when `changes`
holds. -/
structure RunResult where
  deletePaths : List String
  copyPaths : List String
  modifyPaths : List String
  changes : Bool
deriving DecidableEq, Repr

/-- Embedding of the reconciliation part of `main`: path-set diffs,
the modification scan, and the `changes` flag guarding `save_state`.
Python's `set` iteration order is irrelevant to every property below, so
the sets are modelled as duplicate-free key lists. -/
def reconcile (old new : List (String × Entry)) : RunResult :=
  let oldPaths := old.map (·.1)
  let newPaths := new.map (·.1)
  let del := oldPaths.filter (fun p => !newPaths.contains p)
  let copy := newPaths.filter (fun p => !oldPaths.contains p)
  let compare := oldPaths.filter (fun p => newPaths.contains p)
  let modi := compare.filter (fun p =>
    match lookupEntry old p, lookupEntry new p with
    | some eo, some en => modCond eo en
    | _, _ => false)
  { deletePaths := del, copyPaths := copy, modifyPaths := modi,
    changes := !del.isEmpty || !copy.isEmpty || !modi.isEmpty }

/-- Name denoted by an action token: a `no-` prefix is stripped, any
other token names itself. -/
def tokenName (t : String) : String :=
  if pyStartswith t "no-" then pyDrop t 3 else t

/-- Filter table with every `skip-preprocessing` token removed. -/
def eraseSkip (filters : List Rule) : List Rule :=
  filters.map fun r =>
    ⟨r.pattern, r.actions.filter (fun a => a != "skip-preprocessing")⟩

/-- Compressor-selector test used by get_compressor's token loop. -/
def isCompTok (a : String) : Bool :=
  a == "gzip" || a == "heatshrink" || a == "uncompressed"

/-- Modelled from the spec: the resolved compressor is the last
compressor token (`gzip`, `heatshrink`, `uncompressed`) among the action
tokens of the matching rules, taken in evaluation order, and defaults to
`uncompressed` when no matching rule names one. -/
def lastCompressorToken (filters : List Rule) (path : String) : String :=
  (((((filters.filter (fun r => fnmatch path r.pattern)).map (·.actions)).flatten).filter
      isCompTok).getLast?).getD "uncompressed"

/-- Well-formedness of a serialized name sequence: names contain no
comma (the join separator) and the sequence is not the lossy singleton
`[""]`, which `','.join` collapses to the empty field.  Flag names are
always among cache/discard/skip and preprocessor names are configuration
keys, so real snapshots satisfy this. -/
def wfNames (l : List String) : Prop :=
  (∀ s ∈ l, ',' ∉ s.data) ∧ l ≠ [""]

instance (l : List String) : Decidable (wfNames l) := by
  unfold wfNames; infer_instance

/-- Application of the flags-field serialization of `save_state` to a
freshly built entry: `','.join` over the `get_flags` dict iterates its
keys. -/
def savedFlagsField (fl : List (String × Bool)) : String :=
  joinComma (fl.map (·.1))

/-- Deserialization of the flags field by `load_state`. -/
def loadFlagsField (s : String) : List String :=
  if s == "" then [] else splitComma s

/-- Specificity class used by the comparator: `0` for patterns not
starting with a wildcard, `1` for wildcard-prefixed patterns other than
the bare `*`, `2` for the literal `*`. -/
def patClass (p : String) : Nat :=
  if p == "*" then 2 else if pyStartswith p "*" then 1 else 0

/-- Modelled from the spec: the comparator clauses stated in the design
document — the literal `*` sorts last; among non-`*` patterns,
wildcard-prefixed ones sort after non-wildcard-prefixed ones; remaining
ties break by lexicographic order. -/
def specPatLt (p q : String) : Bool :=
  if q == "*" then p != "*"
  else if p == "*" then false
  else if !pyStartswith p "*" && pyStartswith q "*" then true
  else if pyStartswith p "*" && !pyStartswith q "*" then false
  else lexLt p.data q.data

/-! ### Theorems -/

/-- Helper: any rule containing skip-preprocessing empties gpLoop. -/
theorem gpLoop_eq_nil_of_skip (pre : List String) (path : String) :
    ∀ (filters : List Rule) (d : List (String × Bool)),
      (∃ r ∈ filters, "skip-preprocessing" ∈ r.actions) →
      gpLoop pre path filters d = [] := by
  intro filters
  induction filters with
  | nil => intro d h; exact absurd h (by simp)
  | cons r rs ih =>
    intro d h
    by_cases hr : "skip-preprocessing" ∈ r.actions
    · simp only [gpLoop]
      rw [if_pos (List.elem_iff.mpr hr)]
    · have : ∃ r ∈ rs, "skip-preprocessing" ∈ r.actions := by
        rcases h with ⟨r1, hr1, hs⟩
        rcases List.mem_cons.mp hr1 with h1 | h1
        · exact absurd (h1 ▸ hs) hr
        · exact ⟨r1, h1, hs⟩
      simp only [gpLoop]
      rw [if_neg (by simpa [List.elem_iff] using hr)]
      exact ih _ this

/-- C9: if any rule of the filter table carries `skip-preprocessing`,
`get_preprocessors` returns the empty sequence for every path — matching
or not — because the skip test runs for each rule reached in iteration
order, outside the pattern-match guard. -/
theorem C9_skip_global (pre : List String) (filters : List Rule) (path : String)
    (h : ∃ r ∈ filters, "skip-preprocessing" ∈ r.actions) :
    get_preprocessors pre filters path = [] :=
  gpLoop_eq_nil_of_skip pre path filters [] h

/-- Witness for C9: the skip rule's pattern does not match the path,
yet the resolved preprocessor sequence is empty. -/
theorem C9_skip_global_witness :
    fnmatch "a.txt" "b.txt" = false ∧
      get_preprocessors ["minify"] [⟨"b.txt", ["skip-preprocessing"]⟩] "a.txt" = [] :=
  ⟨by decide,
   C9_skip_global ["minify"] [⟨"b.txt", ["skip-preprocessing"]⟩] "a.txt"
     ⟨⟨"b.txt", ["skip-preprocessing"]⟩, by decide, by decide⟩⟩

/-- C1 fails on the code: with rules `*.js → [terser]` then
`vendor/*.js → [no-terser]`, resolving `vendor/app.js` yields `(terser,)`
rather than the claimed empty sequence.  The sorted evaluation order is
`vendor/*.js` before `*.js`, and a `no-` token deletes the accumulator
entry but immediately re-inserts it. -/
theorem C1_counterexample :
    get_preprocessors ["terser"]
        (sortFilters [⟨"*.js", ["terser"]⟩, ⟨"vendor/*.js", ["no-terser"]⟩])
        "vendor/app.js" = ["terser"] ∧
      get_preprocessors ["terser"]
        (sortFilters [⟨"*.js", ["terser"]⟩, ⟨"vendor/*.js", ["no-terser"]⟩])
        "vendor/app.js" ≠ [] := by
  constructor
  · decide
  · decide

/-- C8 fails on the code: build_state's `lstrip('.')` strips every
leading dot character from a directory's root-relative path, so a
top-level directory `.hidden` is recorded under the snapshot key
`hidden`, while the spec's normalization (only a leading `./` or `/`
removed) keeps `.hidden`. -/
theorem C8_dot_dir_key :
    reldirKey ".hidden" = "hidden" ∧ specReldirKey ".hidden" = ".hidden" ∧
      reldirKey ".hidden" ≠ specReldirKey ".hidden" := by
  refine ⟨by decide, by decide, by decide⟩

/-- C2 fails on the code: a matching `skip-preprocessing` rule does not
stop flag or compressor resolution for later rules.  In the table
`a.txt → [skip-preprocessing]`, `* → [gzip]`, the later rule still sets
the compressor of `a.txt` to `gzip` (without it the default
`uncompressed` would remain), and likewise still contributes flags. -/
theorem C2_counterexample :
    ("skip-preprocessing" ∈
        (Rule.mk "a.txt" ["skip-preprocessing"]).actions ∧
      fnmatch "a.txt" "a.txt" = true) ∧
    get_compressor [⟨"a.txt", ["skip-preprocessing"]⟩, ⟨"*", ["gzip"]⟩] "a.txt"
        = "gzip" ∧
    get_compressor [⟨"a.txt", ["skip-preprocessing"]⟩] "a.txt" = "uncompressed" ∧
    get_flags [⟨"a.txt", ["skip-preprocessing"]⟩, ⟨"*", ["cache"]⟩] "a.txt"
        = [("cache", true)] := by
  refine ⟨⟨by decide, by decide⟩, by decide, by decide, by decide⟩

theorem mem_keys_dictSet {β : Type} (d : List (String × β)) (k p : String) (v : β) :
    p ∈ (dictSet d k v).map (·.1) ↔ p ∈ d.map (·.1) ∨ p = k := by
  unfold dictSet
  by_cases h : d.any (fun e => e.1 == k)
  · rw [if_pos h]
    have hk : k ∈ d.map (·.1) := by
      rcases List.any_eq_true.mp h with ⟨e, he, heq⟩
      exact List.mem_map.mpr ⟨e, he, (beq_iff_eq.mp heq)⟩
    constructor
    · intro hp
      rcases List.mem_map.mp hp with ⟨e, he, hfe⟩
      rcases List.mem_map.mp he with ⟨e0, he0, hfe0⟩
      by_cases h0 : e0.1 == k
      · right; rw [← hfe, ← hfe0, if_pos h0]
      · left; exact List.mem_map.mpr ⟨e0, he0, by rw [← hfe, ← hfe0, if_neg h0]⟩
    · rintro (hp | hpk)
      · rcases List.mem_map.mp hp with ⟨e, he, hfe⟩
        refine List.mem_map.mpr ⟨(if e.1 == k then (k, v) else e), List.mem_map.mpr ⟨e, he, rfl⟩, ?_⟩
        by_cases h0 : e.1 == k
        · rw [if_pos h0, ← hfe]; exact (beq_iff_eq.mp h0).symm
        · rw [if_neg h0, hfe]
      · subst hpk
        rcases List.mem_map.mp hk with ⟨e, he, hfe⟩
        refine List.mem_map.mpr ⟨(if e.1 == p then (p, v) else e), List.mem_map.mpr ⟨e, he, rfl⟩, ?_⟩
        rw [if_pos (beq_iff_eq.mpr hfe)]
  · rw [if_neg h]
    simp [List.mem_map, List.mem_append]

theorem mem_keys_dictDel {β : Type} (d : List (String × β)) (k p : String) :
    p ∈ (dictDel d k).map (·.1) ↔ p ∈ d.map (·.1) ∧ p ≠ k := by
  unfold dictDel
  simp only [List.mem_map, List.mem_filter]
  constructor
  · rintro ⟨e, ⟨he, hne⟩, hfe⟩
    exact ⟨⟨e, he, hfe⟩, by rw [← hfe]; simpa using hne⟩
  · rintro ⟨⟨e, he, hfe⟩, hne⟩
    exact ⟨e, ⟨he, by simpa [hfe] using hne⟩, hfe⟩

theorem procPrepAction_eq (pre : List String) (d : List (String × Bool))
    (a : String) :
    procPrepAction pre d a =
      if pre.contains (tokenName a) then
        (if pyStartswith a "no-" then
          dictSet (dictDel d (tokenName a)) (tokenName a) false
        else dictSet d (tokenName a) true)
      else d := by
  unfold procPrepAction tokenName
  by_cases hs : pyStartswith a "no-" <;> simp [hs]

theorem mem_keys_procPrepAction (pre : List String) (d : List (String × Bool))
    (a p : String) :
    p ∈ (procPrepAction pre d a).map (·.1) ↔
      p ∈ d.map (·.1) ∨ (p = tokenName a ∧ p ∈ pre) := by
  rw [procPrepAction_eq]
  by_cases hc : pre.contains (tokenName a)
  · rw [if_pos hc]
    have hp3 : tokenName a ∈ pre := List.elem_iff.mp hc
    by_cases hs : pyStartswith a "no-"
    · rw [if_pos hs, mem_keys_dictSet, mem_keys_dictDel]
      constructor
      · rintro (⟨hm, _⟩ | rfl)
        · exact Or.inl hm
        · exact Or.inr ⟨rfl, hp3⟩
      · rintro (hm | ⟨rfl, _⟩)
        · by_cases hpk : p = tokenName a
          · exact Or.inr hpk
          · exact Or.inl ⟨hm, hpk⟩
        · exact Or.inr rfl
    · rw [if_neg hs, mem_keys_dictSet]
      constructor
      · rintro (hm | rfl)
        · exact Or.inl hm
        · exact Or.inr ⟨rfl, hp3⟩
      · rintro (hm | ⟨rfl, _⟩)
        · exact Or.inl hm
        · exact Or.inr rfl
  · rw [if_neg hc]
    constructor
    · exact Or.inl
    · rintro (hm | ⟨rfl, hp⟩)
      · exact hm
      · exact absurd (List.elem_iff.mpr hp) hc

theorem mem_keys_foldl_procPrep (pre : List String) (p : String) :
    ∀ (acts : List String) (d : List (String × Bool)),
      p ∈ (acts.foldl (procPrepAction pre) d).map (·.1) ↔
        p ∈ d.map (·.1) ∨ ∃ t ∈ acts, p = tokenName t ∧ p ∈ pre := by
  intro acts
  induction acts with
  | nil => intro d; simp
  | cons a t ih =>
    intro d
    rw [List.foldl_cons, ih, mem_keys_procPrepAction]
    constructor
    · rintro ((hm | ⟨rfl, hp⟩) | ⟨t0, ht0, h0⟩)
      · exact Or.inl hm
      · exact Or.inr ⟨a, List.mem_cons_self a t, rfl, hp⟩
      · exact Or.inr ⟨t0, List.mem_cons_of_mem a ht0, h0⟩
    · rintro (hm | ⟨t0, ht0, h0⟩)
      · exact Or.inl (Or.inl hm)
      · rcases List.mem_cons.mp ht0 with rfl | ht0
        · exact Or.inl (Or.inr ⟨h0.1, h0.2⟩)
        · exact Or.inr ⟨t0, ht0, h0⟩

theorem mem_gpLoop_no_skip (pre : List String) (path p : String) :
    ∀ (filters : List Rule) (d : List (String × Bool)),
      (∀ r ∈ filters, "skip-preprocessing" ∉ r.actions) →
      (p ∈ gpLoop pre path filters d ↔
        p ∈ d.map (·.1) ∨ ∃ r ∈ filters, fnmatch path r.pattern = true ∧
          ∃ t ∈ r.actions, p = tokenName t ∧ p ∈ pre) := by
  intro filters
  induction filters with
  | nil => intro d _; simp [gpLoop]
  | cons r rs ih =>
    intro d hns
    have hnr : "skip-preprocessing" ∉ r.actions := hns r (List.mem_cons_self r rs)
    have hnrs : ∀ r0 ∈ rs, "skip-preprocessing" ∉ r0.actions := fun r0 h0 =>
      hns r0 (List.mem_cons_of_mem r h0)
    simp only [gpLoop]
    rw [if_neg (by simpa [List.elem_iff] using hnr)]
    by_cases hm : fnmatch path r.pattern
    · rw [if_pos hm, ih _ hnrs, mem_keys_foldl_procPrep]
      constructor
      · rintro ((hd | ⟨t0, ht0, h0⟩) | ⟨r0, hr0, h0⟩)
        · exact Or.inl hd
        · exact Or.inr ⟨r, List.mem_cons_self r rs, hm, t0, ht0, h0⟩
        · exact Or.inr ⟨r0, List.mem_cons_of_mem r hr0, h0⟩
      · rintro (hd | ⟨r0, hr0, hm0, h0⟩)
        · exact Or.inl (Or.inl hd)
        · rcases List.mem_cons.mp hr0 with rfl | hr0
          · exact Or.inl (Or.inr h0)
          · exact Or.inr ⟨r0, hr0, hm0, h0⟩
    · rw [if_neg hm, ih _ hnrs]
      constructor
      · rintro (hd | ⟨r0, hr0, h0⟩)
        · exact Or.inl hd
        · exact Or.inr ⟨r0, List.mem_cons_of_mem r hr0, h0⟩
      · rintro (hd | ⟨r0, hr0, hm0, h0⟩)
        · exact Or.inl hd
        · rcases List.mem_cons.mp hr0 with rfl | hr0
          · exact absurd hm0 (by simpa using hm)
          · exact Or.inr ⟨r0, hr0, hm0, h0⟩

/-- C1, amended: in a table without `skip-preprocessing`, a name appears
in the resolved preprocessor sequence iff it is a declared preprocessor
mentioned — plainly or `no-`-prefixed — by some matching rule: a `no-`
token deletes the entry but immediately re-inserts it at the end, so it
is never absent from the returned key sequence.  With the example rules,
both `vendor/app.js` and `app.js` resolve to `(terser,)`. -/
theorem C1_actual_semantics :
    (∀ (pre : List String) (filters : List Rule) (path p : String),
      (∀ r ∈ filters, "skip-preprocessing" ∉ r.actions) →
      (p ∈ get_preprocessors pre filters path ↔
        ∃ r ∈ filters, fnmatch path r.pattern = true ∧
          ∃ t ∈ r.actions, p = tokenName t ∧ p ∈ pre)) ∧
    get_preprocessors ["terser"]
        (sortFilters [⟨"*.js", ["terser"]⟩, ⟨"vendor/*.js", ["no-terser"]⟩])
        "vendor/app.js" = ["terser"] ∧
    get_preprocessors ["terser"]
        (sortFilters [⟨"*.js", ["terser"]⟩, ⟨"vendor/*.js", ["no-terser"]⟩])
        "app.js" = ["terser"] := by
  refine ⟨?_, by decide, by decide⟩
  intro pre filters path p hns
  rw [get_preprocessors, mem_gpLoop_no_skip pre path p filters [] hns]
  simp

/-- Witness for C1 (amended) at a concrete table and path. -/
theorem C1_actual_semantics_witness :
    ("terser" ∈ get_preprocessors ["terser"] [⟨"*.js", ["terser", "no-terser"]⟩] "app.js" ↔
      ∃ r ∈ [Rule.mk "*.js" ["terser", "no-terser"]],
        fnmatch "app.js" r.pattern = true ∧
          ∃ t ∈ r.actions, "terser" = tokenName t ∧ "terser" ∈ ["terser"]) :=
  C1_actual_semantics.1 ["terser"] [⟨"*.js", ["terser", "no-terser"]⟩] "app.js" "terser"
    (by decide)

theorem procFlagAction_skip (d : List (String × Bool)) :
    procFlagAction d "skip-preprocessing" = d := rfl

theorem procCompAction_skip (c : String) :
    procCompAction c "skip-preprocessing" = c := rfl

theorem foldl_procFlag_eraseSkip (acts : List String) :
    ∀ d, (acts.filter (fun a => a != "skip-preprocessing")).foldl procFlagAction d
      = acts.foldl procFlagAction d := by
  induction acts with
  | nil => intro d; rfl
  | cons a t ih =>
    intro d
    by_cases ha : a = "skip-preprocessing"
    · subst ha
      rw [List.filter_cons_of_neg (by decide), List.foldl_cons, procFlagAction_skip, ih]
    · rw [List.filter_cons_of_pos (by simpa using ha), List.foldl_cons, List.foldl_cons, ih]

theorem foldl_procComp_eraseSkip (acts : List String) :
    ∀ c, (acts.filter (fun a => a != "skip-preprocessing")).foldl procCompAction c
      = acts.foldl procCompAction c := by
  induction acts with
  | nil => intro c; rfl
  | cons a t ih =>
    intro c
    by_cases ha : a = "skip-preprocessing"
    · subst ha
      rw [List.filter_cons_of_neg (by decide), List.foldl_cons, procCompAction_skip, ih]
    · rw [List.filter_cons_of_pos (by simpa using ha), List.foldl_cons, List.foldl_cons, ih]

theorem get_flags_eraseSkip (filters : List Rule) (path : String) :
    get_flags (eraseSkip filters) path = get_flags filters path := by
  unfold get_flags eraseSkip
  rw [List.foldl_map]
  congr 1
  funext d r
  by_cases hm : fnmatch path r.pattern
  · simp only [hm, if_pos, if_true]
    exact foldl_procFlag_eraseSkip r.actions d
  · simp [hm]

theorem get_compressor_eraseSkip (filters : List Rule) (path : String) :
    get_compressor (eraseSkip filters) path = get_compressor filters path := by
  unfold get_compressor eraseSkip
  rw [List.foldl_map]
  congr 1
  funext c r
  by_cases hm : fnmatch path r.pattern
  · simp only [hm, if_pos, if_true]
    exact foldl_procComp_eraseSkip r.actions c
  · simp [hm]

/-- C2, amended: if any rule carries `skip-preprocessing`, the resolved
preprocessor list is empty (for every path), while flag and compressor
resolution ignore `skip-preprocessing` tokens entirely and keep
consulting every matching rule, including rules after the skip rule. -/
theorem C2_amended (pre : List String) (filters : List Rule) (path : String)
    (h : ∃ r ∈ filters, "skip-preprocessing" ∈ r.actions) :
    get_preprocessors pre filters path = [] ∧
    get_flags filters path = get_flags (eraseSkip filters) path ∧
    get_compressor filters path = get_compressor (eraseSkip filters) path :=
  ⟨gpLoop_eq_nil_of_skip pre path filters [] h,
   (get_flags_eraseSkip filters path).symm,
   (get_compressor_eraseSkip filters path).symm⟩

/-- Witness for C2 (amended) at a concrete table and path. -/
theorem C2_amended_witness :
    get_preprocessors ["minify"]
        [⟨"a.txt", ["minify", "skip-preprocessing"]⟩, ⟨"*", ["gzip", "cache"]⟩]
        "a.txt" = [] ∧
    get_flags [⟨"a.txt", ["minify", "skip-preprocessing"]⟩, ⟨"*", ["gzip", "cache"]⟩] "a.txt"
      = get_flags (eraseSkip [⟨"a.txt", ["minify", "skip-preprocessing"]⟩, ⟨"*", ["gzip", "cache"]⟩]) "a.txt" ∧
    get_compressor [⟨"a.txt", ["minify", "skip-preprocessing"]⟩, ⟨"*", ["gzip", "cache"]⟩] "a.txt"
      = get_compressor (eraseSkip [⟨"a.txt", ["minify", "skip-preprocessing"]⟩, ⟨"*", ["gzip", "cache"]⟩]) "a.txt" :=
  C2_amended ["minify"]
    [⟨"a.txt", ["minify", "skip-preprocessing"]⟩, ⟨"*", ["gzip", "cache"]⟩] "a.txt"
    ⟨⟨"a.txt", ["minify", "skip-preprocessing"]⟩, by decide, by decide⟩

theorem procCompAction_eq (c a : String) :
    procCompAction c a = if isCompTok a then a else c := rfl

theorem getLastD_cons (x d : String) (l : List String) :
    (x :: l).getLast?.getD d = l.getLast?.getD x := by
  induction l generalizing x d with
  | nil => rfl
  | cons y t ih => rw [List.getLast?_cons_cons, ih y d, ih y x]

theorem foldl_procComp_last (acts : List String) :
    ∀ c, acts.foldl procCompAction c = ((acts.filter isCompTok).getLast?).getD c := by
  induction acts with
  | nil => intro c; rfl
  | cons a t ih =>
    intro c
    rw [List.foldl_cons, ih, procCompAction_eq]
    by_cases ha : isCompTok a
    · rw [if_pos ha, List.filter_cons_of_pos ha, getLastD_cons]
    · rw [if_neg ha, List.filter_cons_of_neg (by simpa using ha)]

theorem get_compressor_foldl (path : String) (filters : List Rule) :
    ∀ c, filters.foldl
        (fun comp r =>
          if fnmatch path r.pattern then r.actions.foldl procCompAction comp
          else comp) c
      = (((filters.filter (fun r => fnmatch path r.pattern)).map (·.actions)).flatten).foldl
          procCompAction c := by
  induction filters with
  | nil => intro c; rfl
  | cons r rs ih =>
    intro c
    rw [List.foldl_cons]
    by_cases hm : fnmatch path r.pattern
    · rw [if_pos hm, List.filter_cons_of_pos (by simpa using hm), List.map_cons]
      show _ = List.foldl procCompAction c (r.actions ++ _)
      rw [List.foldl_append, ih]
    · rw [if_neg hm, List.filter_cons_of_neg (by simpa using hm), ih]

/-- C7: the resolved compressor is the last compressor token among the
matching rules' actions in evaluation order and defaults to
`uncompressed`; in particular `a.min.css` under `*.css → gzip` then
`*.min.css → uncompressed` resolves to `uncompressed`. -/
theorem C7_compressor_last_match :
    (∀ (filters : List Rule) (path : String),
      get_compressor filters path = lastCompressorToken filters path) ∧
    get_compressor
        (sortFilters [⟨"*.css", ["gzip"]⟩, ⟨"*.min.css", ["uncompressed"]⟩])
        "a.min.css" = "uncompressed" ∧
    get_compressor [] "anything" = "uncompressed" := by
  refine ⟨?_, by decide, by decide⟩
  intro filters path
  rw [get_compressor, get_compressor_foldl, foldl_procComp_last, lastCompressorToken]

theorem lookupEntry_of_mem (st : List (String × Entry)) (p : String)
    (h : p ∈ st.map (·.1)) : ∃ e, lookupEntry st p = some e := by
  induction st with
  | nil => simp at h
  | cons pe t ih =>
    by_cases hp : pe.1 = p
    · exact ⟨pe.2, by simp [lookupEntry, List.find?, hp]⟩
    · have : p ∈ t.map (·.1) := by
        rcases List.mem_map.mp h with ⟨e0, he0, hf⟩
        rcases List.mem_cons.mp he0 with rfl | he0
        · exact absurd hf hp
        · exact List.mem_map.mpr ⟨e0, he0, hf⟩
      rcases ih this with ⟨e, he⟩
      refine ⟨e, ?_⟩
      unfold lookupEntry at he ⊢
      rw [List.find?_cons_of_neg _ (by simpa using hp)]
      exact he

/-- Entries that agree on kind, preprocessor sequence and mtime are not
flagged as modifications. -/
theorem modCond_eq_false (eo en : Entry) (h1 : eo.type = en.type)
    (h2 : eo.preprocessors = en.preprocessors) (h3 : eo.mtime = en.mtime) :
    modCond eo en = false := by
  simp [modCond, h1, h2, h3]

/-- C3: a path present in both snapshots is classified as a modification
iff its kind differs, or its preprocessor sequence differs under
order-sensitive comparison, or the old mtime is strictly below the new
one; entries agreeing on those three fields are never modifications, so
compressor-only or flag-only differences do not trigger reprocessing. -/
theorem C3_modification_iff :
    (∀ (old new : List (String × Entry)) (p : String),
      p ∈ (reconcile old new).modifyPaths ↔
        ∃ eo en, lookupEntry old p = some eo ∧ lookupEntry new p = some en ∧
          p ∈ old.map (·.1) ∧ p ∈ new.map (·.1) ∧
          (eo.type ≠ en.type ∨ eo.preprocessors ≠ en.preprocessors ∨
            eo.mtime < en.mtime)) ∧
    (∀ eo en : Entry, eo.type = en.type → eo.preprocessors = en.preprocessors →
      eo.mtime = en.mtime → modCond eo en = false) := by
  constructor
  · intro old new p
    simp only [reconcile, List.mem_filter, List.elem_iff]
    constructor
    · rintro ⟨⟨hpo, hpn⟩, hcond⟩
      have hpn' : p ∈ new.map (·.1) := by simpa [List.elem_iff] using hpn
      rcases lookupEntry_of_mem old p hpo with ⟨eo, heo⟩
      rcases lookupEntry_of_mem new p hpn' with ⟨en, hen⟩
      refine ⟨eo, en, heo, hen, hpo, hpn', ?_⟩
      rw [heo, hen] at hcond
      simpa [modCond, bne_iff_ne, decide_eq_true_eq, or_assoc] using hcond
    · rintro ⟨eo, en, heo, hen, hpo, hpn, hcond⟩
      refine ⟨⟨hpo, by simpa [List.elem_iff] using hpn⟩, ?_⟩
      rw [heo, hen]
      simpa [modCond, bne_iff_ne, decide_eq_true_eq, or_assoc] using hcond
  · exact modCond_eq_false

/-- Witness for C3: entries differing only in flags and compressor are
not flagged as modifications. -/
theorem C3_modification_iff_witness :
    modCond ⟨"file", 7, ["cache"], ["terser"], "gzip"⟩
      ⟨"file", 7, ["discard"], ["terser"], "uncompressed"⟩ = false :=
  C3_modification_iff.2 _ _ rfl rfl rfl

/-- C5: when the snapshots have the same path set and agree per path on
kind, mtime and preprocessor sequence, reconciliation yields empty
delete/copy/modify sets and `changes = false`, so no destination
operation is driven and the state file is not rewritten; in general the
new state is persisted exactly when one of the three sets is
non-empty. -/
theorem C5_no_op :
    (∀ (old new : List (String × Entry)),
      (∀ p, p ∈ old.map (·.1) ↔ p ∈ new.map (·.1)) →
      (∀ p eo en, lookupEntry old p = some eo → lookupEntry new p = some en →
        eo.type = en.type ∧ eo.preprocessors = en.preprocessors ∧
          eo.mtime = en.mtime) →
      (reconcile old new).deletePaths = [] ∧
        (reconcile old new).copyPaths = [] ∧
        (reconcile old new).modifyPaths = [] ∧
        (reconcile old new).changes = false) ∧
    (∀ (old new : List (String × Entry)),
      (reconcile old new).changes = true ↔
        ¬((reconcile old new).deletePaths = [] ∧
          (reconcile old new).copyPaths = [] ∧
          (reconcile old new).modifyPaths = [])) := by
  constructor
  · intro old new hkeys hent
    have hdel : (reconcile old new).deletePaths = [] := by
      simp only [reconcile]
      rw [List.filter_eq_nil_iff]
      intro p hp
      simp [List.elem_iff, (hkeys p).mp hp]
    have hcopy : (reconcile old new).copyPaths = [] := by
      simp only [reconcile]
      rw [List.filter_eq_nil_iff]
      intro p hp
      simp [List.elem_iff, (hkeys p).mpr hp]
    have hmodi : (reconcile old new).modifyPaths = [] := by
      simp only [reconcile]
      rw [List.filter_eq_nil_iff]
      intro p hp
      have hpo : p ∈ old.map (·.1) := (List.mem_filter.mp hp).1
      have hpn : p ∈ new.map (·.1) := (hkeys p).mp hpo
      rcases lookupEntry_of_mem old p hpo with ⟨eo, heo⟩
      rcases lookupEntry_of_mem new p hpn with ⟨en, hen⟩
      rcases hent p eo en heo hen with ⟨h1, h2, h3⟩
      rw [heo, hen]
      simp [modCond_eq_false eo en h1 h2 h3]
    refine ⟨hdel, hcopy, hmodi, ?_⟩
    simp only [reconcile] at hdel hcopy hmodi ⊢
    rw [hdel, hcopy, hmodi]
    rfl
  · intro old new
    simp only [reconcile]
    cases hd : (old.map (·.1)).filter (fun p => !(new.map (·.1)).contains p) <;>
      cases hc : (new.map (·.1)).filter (fun p => !(old.map (·.1)).contains p) <;>
      simp_all [List.isEmpty_iff]

/-- Witness for C5 at a concrete unchanged snapshot. -/
theorem C5_no_op_witness :
    (reconcile [("a", ⟨"file", 3, [], ["terser"], "gzip"⟩)]
        [("a", ⟨"file", 3, [], ["terser"], "gzip"⟩)]).deletePaths = [] ∧
    (reconcile [("a", ⟨"file", 3, [], ["terser"], "gzip"⟩)]
        [("a", ⟨"file", 3, [], ["terser"], "gzip"⟩)]).copyPaths = [] ∧
    (reconcile [("a", ⟨"file", 3, [], ["terser"], "gzip"⟩)]
        [("a", ⟨"file", 3, [], ["terser"], "gzip"⟩)]).modifyPaths = [] ∧
    (reconcile [("a", ⟨"file", 3, [], ["terser"], "gzip"⟩)]
        [("a", ⟨"file", 3, [], ["terser"], "gzip"⟩)]).changes = false :=
  C5_no_op.1 _ _ (fun _ => Iff.rfl)
    (fun p eo en h1 h2 => by
      rw [h1] at h2
      injection h2 with h
      subst h
      exact ⟨rfl, rfl, rfl⟩)

theorem splitChars_ne_nil (sep : Char) (cs : List Char) :
    splitChars sep cs ≠ [] := by
  cases cs with
  | nil => simp [splitChars]
  | cons c cs =>
    by_cases hc : c == sep
    · simp [splitChars, hc]
    · cases h : splitChars sep cs <;> simp [splitChars, hc, h]

theorem splitChars_no_sep (sep : Char) (x : List Char) (h : sep ∉ x) :
    splitChars sep x = [x] := by
  induction x with
  | nil => rfl
  | cons c cs ih =>
    have hc : ¬(c == sep) = true := by
      simp only [beq_iff_eq]
      rintro rfl
      exact h (List.mem_cons_self c cs)
    have ht : sep ∉ cs := fun hm => h (List.mem_cons_of_mem c hm)
    simp [splitChars, hc, ih ht]

theorem splitChars_append (sep : Char) (x r : List Char) (h : sep ∉ x) :
    splitChars sep (x ++ sep :: r) = x :: splitChars sep r := by
  induction x with
  | nil => simp [splitChars]
  | cons c cs ih =>
    have hc : ¬(c == sep) = true := by
      simp only [beq_iff_eq]
      rintro rfl
      exact h (List.mem_cons_self c cs)
    have ht : sep ∉ cs := fun hm => h (List.mem_cons_of_mem c hm)
    rw [List.cons_append]
    simp [splitChars, hc, ih ht]

theorem splitChars_joinChars (sep : Char) :
    ∀ (l : List (List Char)), l ≠ [] → (∀ x ∈ l, sep ∉ x) →
      splitChars sep (joinChars sep l) = l := by
  intro l
  induction l with
  | nil => intro h _; exact absurd rfl h
  | cons x t ih =>
    intro _ hfree
    cases t with
    | nil => exact splitChars_no_sep sep x (hfree x (List.mem_cons_self x []))
    | cons y u =>
      have hj : joinChars sep (x :: y :: u) = x ++ sep :: joinChars sep (y :: u) := rfl
      rw [hj, splitChars_append sep x _ (hfree x (List.mem_cons_self x _)),
        ih (by simp) (fun z hz => hfree z (List.mem_cons_of_mem x hz))]

theorem joinChars_eq_nil_iff (sep : Char) (l : List (List Char)) :
    joinChars sep l = [] ↔ l = [] ∨ l = [[]] := by
  cases l with
  | nil => simp [joinChars]
  | cons x t =>
    cases t with
    | nil => simp [joinChars]
    | cons y u =>
      have hj : joinChars sep (x :: y :: u) = x ++ sep :: joinChars sep (y :: u) := rfl
      rw [hj]
      simp

theorem data_mk (s : String) : String.mk s.data = s := rfl

theorem splitComma_joinComma (l : List String) (hne : l ≠ [])
    (hfree : ∀ s ∈ l, ',' ∉ s.data) : splitComma (joinComma l) = l := by
  unfold splitComma joinComma
  rw [show (String.mk (joinChars ',' (l.map (·.data)))).data
        = joinChars ',' (l.map (·.data)) from rfl]
  rw [splitChars_joinChars ',' (l.map (·.data)) (by simpa using hne)
    (by intro x hx; rcases List.mem_map.mp hx with ⟨s, hs, rfl⟩; exact hfree s hs)]
  rw [List.map_map]
  exact List.map_id'' (fun s => rfl) l

theorem joinComma_eq_empty_iff (l : List String) :
    joinComma l = "" ↔ l = [] ∨ l = [""] := by
  unfold joinComma
  constructor
  · intro h
    have hd : joinChars ',' (l.map (·.data)) = [] := by
      have := congrArg String.data h
      simpa using this
    rcases (joinChars_eq_nil_iff ',' _).mp hd with h0 | h0
    · left; simpa using h0
    · right
      cases l with
      | nil => simp at h0
      | cons s t =>
        cases t with
        | nil =>
          simp only [List.map_cons, List.map_nil, List.cons.injEq, and_true] at h0
          have : s = "" := by
            have := congrArg String.mk h0
            simpa [data_mk] using this
          rw [this]
        | cons y u => simp at h0
  · rintro (rfl | rfl) <;> rfl

theorem joinComma_ne_empty (l : List String) (hne : l ≠ []) (hwf : wfNames l) :
    ¬(joinComma l = "") := by
  intro h
  rcases (joinComma_eq_empty_iff l).mp h with h0 | h0
  · exact hne h0
  · exact hwf.2 h0

theorem loadRow_saveRow (pe : String × Entry)
    (hf : wfNames pe.2.flags) (hp : wfNames pe.2.preprocessors) :
    loadRow (saveRow pe) = pe := by
  obtain ⟨p, e⟩ := pe
  obtain ⟨ty, mt, fl, pr, co⟩ := e
  simp only [loadRow, saveRow]
  refine Prod.ext rfl ?_
  simp only
  congr 1
  · by_cases h0 : fl = []
    · subst h0; rfl
    · rw [if_neg (by simpa using joinComma_ne_empty fl h0 hf)]
      exact splitComma_joinComma fl h0 hf.1
  · by_cases h0 : pr = []
    · subst h0; rfl
    · rw [if_neg (by simpa using joinComma_ne_empty pr h0 hp)]
      exact splitComma_joinComma pr h0 hp.1

theorem dictSet_of_not_mem {β : Type} (d : List (String × β)) (k : String)
    (v : β) (h : k ∉ d.map (·.1)) : dictSet d k v = d ++ [(k, v)] := by
  unfold dictSet
  rw [if_neg]
  intro hany
  rcases List.any_eq_true.mp hany with ⟨e, he, heq⟩
  exact h (List.mem_map.mpr ⟨e, he, beq_iff_eq.mp heq⟩)

theorem load_save_aux :
    ∀ (st acc : List (String × Entry)),
      (st.map (·.1)).Nodup →
      (∀ pe ∈ st, pe.1 ∉ acc.map (·.1)) →
      (∀ pe ∈ st, wfNames pe.2.flags ∧ wfNames pe.2.preprocessors) →
      (st.map saveRow).foldl
          (fun s r => dictSet s (loadRow r).1 (loadRow r).2) acc
        = acc ++ st := by
  intro st
  induction st with
  | nil => intro acc _ _ _; simp
  | cons pe t ih =>
    intro acc hnd hdis hwf
    have hrt : loadRow (saveRow pe) = pe :=
      loadRow_saveRow pe (hwf pe (List.mem_cons_self pe t)).1
        (hwf pe (List.mem_cons_self pe t)).2
    rw [List.map_cons, List.foldl_cons, hrt,
      dictSet_of_not_mem acc pe.1 pe.2 (hdis pe (List.mem_cons_self pe t))]
    have hnd' : (t.map (·.1)).Nodup := (List.nodup_cons.mp (by simpa using hnd)).2
    have hhead : pe.1 ∉ t.map (·.1) := (List.nodup_cons.mp (by simpa using hnd)).1
    have hdis' : ∀ qe ∈ t, qe.1 ∉ (acc ++ [pe]).map (·.1) := by
      intro qe hqe
      rw [List.map_append]
      intro hmem
      rcases List.mem_append.mp hmem with hm | hm
      · exact hdis qe (List.mem_cons_of_mem pe hqe) hm
      · simp only [List.map_cons, List.map_nil, List.mem_singleton] at hm
        exact hhead (hm ▸ List.mem_map.mpr ⟨qe, hqe, rfl⟩)
    rw [ih (acc ++ [pe]) hnd' hdis'
      (fun qe hqe => hwf qe (List.mem_cons_of_mem pe hqe))]
    simp

/-- C4: saving a snapshot with save_state and reloading it with
load_state reproduces the same entry map — same path keys and, per path,
the same kind, mtime, flags, preprocessor sequence and compressor — for
snapshots whose flag and preprocessor names are comma-free and whose
name lists are not the lossy singleton of one empty string; in
particular empty lists round-trip as empty sequences, not as a single
empty-string element. -/
theorem C4_round_trip (st : List (String × Entry))
    (hnd : (st.map (·.1)).Nodup)
    (hwf : ∀ pe ∈ st, wfNames pe.2.flags ∧ wfNames pe.2.preprocessors) :
    load_state (save_state st) = st := by
  unfold load_state save_state
  simpa using load_save_aux st [] hnd (by simp) hwf

/-- Witness for C4 at a concrete two-entry snapshot including empty
flag and preprocessor lists. -/
theorem C4_round_trip_witness :
    load_state (save_state
        [("sub", ⟨"dir", 11, [], [], "uncompressed"⟩),
         ("sub/app.js", ⟨"file", 12, ["cache", "discard"], ["babel", "terser"], "gzip"⟩)])
      = [("sub", ⟨"dir", 11, [], [], "uncompressed"⟩),
         ("sub/app.js", ⟨"file", 12, ["cache", "discard"], ["babel", "terser"], "gzip"⟩)] :=
  C4_round_trip _ (by decide) (by decide)

theorem mem_dictSet_cases {β : Type} (d : List (String × β)) (k : String)
    (v : β) (pe : String × β) (h : pe ∈ dictSet d k v) :
    pe ∈ d ∨ pe.1 = k := by
  unfold dictSet at h
  by_cases h0 : d.any (fun e => e.1 == k)
  · rw [if_pos h0] at h
    rcases List.mem_map.mp h with ⟨e, he, hfe⟩
    by_cases h1 : e.1 == k
    · right; rw [← hfe, if_pos h1]
    · left; rw [← hfe, if_neg h1]; exact he
  · rw [if_neg h0] at h
    rcases List.mem_append.mp h with hm | hm
    · exact Or.inl hm
    · right; simp only [List.mem_singleton] at hm; rw [hm]

theorem get_flags_keys (filters : List Rule) (path : String) :
    ∀ pe ∈ get_flags filters path,
      pe.1 = "cache" ∨ pe.1 = "discard" ∨ pe.1 = "skip" := by
  unfold get_flags
  suffices h : ∀ (fs : List Rule) (d : List (String × Bool)),
      (∀ pe ∈ d, pe.1 = "cache" ∨ pe.1 = "discard" ∨ pe.1 = "skip") →
      ∀ pe ∈ fs.foldl
        (fun d r =>
          if fnmatch path r.pattern then r.actions.foldl procFlagAction d
          else d) d,
        pe.1 = "cache" ∨ pe.1 = "discard" ∨ pe.1 = "skip" by
    exact h filters [] (by simp)
  have hact : ∀ (acts : List String) (d : List (String × Bool)),
      (∀ pe ∈ d, pe.1 = "cache" ∨ pe.1 = "discard" ∨ pe.1 = "skip") →
      ∀ pe ∈ acts.foldl procFlagAction d,
        pe.1 = "cache" ∨ pe.1 = "discard" ∨ pe.1 = "skip" := by
    intro acts
    induction acts with
    | nil => intro d hd; exact hd
    | cons a t ih =>
      intro d hd
      rw [List.foldl_cons]
      refine ih _ ?_
      intro pe hpe
      unfold procFlagAction at hpe
      set nm := if !(!pyStartswith a "no-") then pyDrop a 3 else a with hnm
      by_cases hc : nm == "cache" || nm == "discard" || nm == "skip"
      · rw [if_pos hc] at hpe
        rcases mem_dictSet_cases _ _ _ _ hpe with hm | hk
        · exact hd pe hm
        · rcases Bool.or_eq_true _ _ |>.mp hc with h1 | h1
          · rcases Bool.or_eq_true _ _ |>.mp h1 with h2 | h2
            · exact Or.inl (hk.trans (beq_iff_eq.mp h2))
            · exact Or.inr (Or.inl (hk.trans (beq_iff_eq.mp h2)))
          · exact Or.inr (Or.inr (hk.trans (beq_iff_eq.mp h1)))
      · rw [if_neg hc] at hpe
        exact hd pe hpe
  intro fs
  induction fs with
  | nil => intro d hd; exact hd
  | cons r rs ih =>
    intro d hd
    rw [List.foldl_cons]
    by_cases hm : fnmatch path r.pattern
    · rw [if_pos hm]
      exact ih _ (hact r.actions d hd)
    · rw [if_neg hm]
      exact ih _ hd

/-- C10: get_flags keeps a flag name as a key even when its last
matching token was disabling (mapping it to `false` instead of removing
it), and serialization lists only the keys, so every flag key — enabled
or disabled — appears in the persisted flags field as if it were set. -/
theorem C10_flag_keys_persisted :
    (∀ (filters : List Rule) (path f : String) (b : Bool),
      (f, b) ∈ get_flags filters path →
      f ∈ loadFlagsField (savedFlagsField (get_flags filters path))) ∧
    get_flags [⟨"*", ["no-cache"]⟩] "x" = [("cache", false)] := by
  refine ⟨?_, by decide⟩
  intro filters path f b hmem
  set fl := get_flags filters path with hfl
  have hkeys := get_flags_keys filters path
  have hfmem : f ∈ fl.map (·.1) := List.mem_map.mpr ⟨(f, b), hmem, rfl⟩
  have hne : fl.map (·.1) ≠ [] := by
    intro h0; rw [h0] at hfmem; exact List.not_mem_nil f hfmem
  have hwf : wfNames (fl.map (·.1)) := by
    constructor
    · intro s hs
      rcases List.mem_map.mp hs with ⟨pe, hpe, rfl⟩
      rcases hkeys pe hpe with h | h | h <;> rw [h] <;> decide
    · intro h0
      have : ("" : String) ∈ fl.map (·.1) := by rw [h0]; exact List.mem_singleton.mpr rfl
      rcases List.mem_map.mp this with ⟨pe, hpe, hfe⟩
      rcases hkeys pe hpe with h | h | h <;> rw [h] at hfe <;> exact absurd hfe (by decide)
  unfold loadFlagsField savedFlagsField
  rw [if_neg (by simpa using joinComma_ne_empty _ hne hwf),
    splitComma_joinComma _ hne hwf.1]
  exact hfmem

/-- Witness for C10: the flag disabled by `no-cache` is persisted under
its name. -/
theorem C10_flag_keys_persisted_witness :
    "cache" ∈ loadFlagsField (savedFlagsField (get_flags [⟨"*", ["no-cache"]⟩] "x")) :=
  C10_flag_keys_persisted.1 [⟨"*", ["no-cache"]⟩] "x" "cache" false (by decide)

theorem lexLt_irrefl : ∀ a : List Char, lexLt a a = false := by
  intro a
  induction a with
  | nil => rfl
  | cons c cs ih => simp [lexLt, ih, lt_irrefl]

theorem lexLt_trans :
    ∀ a b c : List Char, lexLt a b = true → lexLt b c = true →
      lexLt a c = true := by
  intro a
  induction a with
  | nil =>
    intro b c hab hbc
    cases b with
    | nil => exact absurd hab (by simp [lexLt])
    | cons y ys =>
      cases c with
      | nil => exact absurd hbc (by simp [lexLt])
      | cons z zs => rfl
  | cons x xs ih =>
    intro b c hab hbc
    cases b with
    | nil => exact absurd hab (by simp [lexLt])
    | cons y ys =>
      cases c with
      | nil => exact absurd hbc (by simp [lexLt])
      | cons z zs =>
        simp only [lexLt, Bool.or_eq_true, Bool.and_eq_true, beq_iff_eq,
          decide_eq_true_eq] at hab hbc ⊢
        rcases hab with h1 | ⟨rfl, h1⟩
        · rcases hbc with h2 | ⟨rfl, h2⟩
          · exact Or.inl (lt_trans h1 h2)
          · exact Or.inl h1
        · rcases hbc with h2 | ⟨rfl, h2⟩
          · exact Or.inl h2
          · exact Or.inr ⟨rfl, ih ys zs h1 h2⟩

theorem lexLt_asymm :
    ∀ a b : List Char, lexLt a b = true → lexLt b a = false := by
  intro a b hab
  by_contra h
  have hba : lexLt b a = true := by
    cases h0 : lexLt b a
    · exact absurd h0 h
    · rfl
  have := lexLt_trans a b a hab hba
  rw [lexLt_irrefl] at this
  exact Bool.false_ne_true this

theorem lexLt_total :
    ∀ a b : List Char, a ≠ b → lexLt a b = true ∨ lexLt b a = true := by
  intro a
  induction a with
  | nil =>
    intro b hne
    cases b with
    | nil => exact absurd rfl hne
    | cons y ys => exact Or.inl rfl
  | cons x xs ih =>
    intro b hne
    cases b with
    | nil => exact Or.inr rfl
    | cons y ys =>
      by_cases hxy : x = y
      · subst hxy
        have hys : xs ≠ ys := by
          intro h0; exact hne (by rw [h0])
        rcases ih ys hys with h | h
        · exact Or.inl (by simp [lexLt, h])
        · exact Or.inr (by simp [lexLt, h])
      · rcases lt_or_gt_of_ne hxy with h | h
        · exact Or.inl (by simp [lexLt, h])
        · exact Or.inr (by simp [lexLt, h])

theorem patternLt_iff (p q : String) :
    patternLt p q = true ↔
      (patClass p < patClass q ∨
        (patClass p = patClass q ∧ lexLt p.data q.data = true)) := by
  unfold patternLt patClass
  by_cases hp2 : p == "*"
  · have hps : pyStartswith p "*" := by
      rw [beq_iff_eq] at hp2; subst hp2; decide
    by_cases hq2 : q == "*"
    · rw [beq_iff_eq] at hp2 hq2
      subst hp2; subst hq2
      simp [lexLt_irrefl]
    · simp only [hp2, hq2, if_pos, if_neg, ite_true, ite_false]
      by_cases hqs : pyStartswith q "*" <;> simp [hqs]
  · by_cases hq2 : q == "*"
    · simp only [hp2, hq2, ite_true, ite_false, Bool.false_eq_true]
      by_cases hps : pyStartswith p "*" <;> simp [hps]
    · simp only [hp2, hq2, ite_false, Bool.false_eq_true]
      by_cases hps : pyStartswith p "*" <;> by_cases hqs : pyStartswith q "*" <;>
        simp [hps, hqs]

theorem patternLt_trans (p q r : String) (h1 : patternLt p q = true)
    (h2 : patternLt q r = true) : patternLt p r = true := by
  rw [patternLt_iff] at h1 h2 ⊢
  rcases h1 with h1 | ⟨e1, l1⟩
  · rcases h2 with h2 | ⟨e2, l2⟩
    · exact Or.inl (Nat.lt_trans h1 h2)
    · exact Or.inl (e2 ▸ h1)
  · rcases h2 with h2 | ⟨e2, l2⟩
    · exact Or.inl (e1 ▸ h2)
    · exact Or.inr ⟨e1.trans e2, lexLt_trans _ _ _ l1 l2⟩

theorem patternLt_asymm (p q : String) (h : patternLt p q = true) :
    patternLt q p = false := by
  by_contra hc
  have hqp : patternLt q p = true := by
    cases h0 : patternLt q p
    · exact absurd h0 hc
    · rfl
  rw [patternLt_iff] at h hqp
  rcases h with h | ⟨e, l⟩
  · rcases hqp with h2 | ⟨e2, _⟩
    · omega
    · omega
  · rcases hqp with h2 | ⟨_, l2⟩
    · omega
    · rw [lexLt_asymm _ _ l] at l2
      exact Bool.false_ne_true l2

theorem string_data_inj (p q : String) (h : p.data = q.data) : p = q := by
  have := congrArg String.mk h
  simpa [data_mk] using this

theorem patternLt_total (p q : String) (hne : p ≠ q) :
    patternLt p q = true ∨ patternLt q p = true := by
  rw [patternLt_iff, patternLt_iff]
  rcases Nat.lt_trichotomy (patClass p) (patClass q) with h | h | h
  · exact Or.inl (Or.inl h)
  · have hdata : p.data ≠ q.data := fun h0 => hne (string_data_inj p q h0)
    rcases lexLt_total p.data q.data hdata with hl | hl
    · exact Or.inl (Or.inr ⟨h, hl⟩)
    · exact Or.inr (Or.inr ⟨h.symm, hl⟩)
  · exact Or.inr (Or.inl h)

theorem stableInsert_perm {α : Type} (lt : α → α → Bool) (x : α) :
    ∀ l : List α, (stableInsert lt x l).Perm (x :: l) := by
  intro l
  induction l with
  | nil => exact List.Perm.refl _
  | cons y ys ih =>
    by_cases h : lt x y
    · rw [stableInsert, if_pos h]
    · rw [stableInsert, if_neg h]
      exact (ih.cons y).trans (List.Perm.swap x y ys)

theorem pySorted_perm_aux {α : Type} (lt : α → α → Bool) :
    ∀ (l acc : List α),
      (l.foldl (fun a x => stableInsert lt x a) acc).Perm (acc ++ l) := by
  intro l
  induction l with
  | nil => intro acc; simp
  | cons x t ih =>
    intro acc
    rw [List.foldl_cons]
    refine (ih (stableInsert lt x acc)).trans ?_
    refine (((stableInsert_perm lt x acc).append_right t).trans ?_)
    exact List.perm_middle.symm

theorem pySorted_perm {α : Type} (lt : α → α → Bool) (l : List α) :
    (pySorted lt l).Perm l := by
  simpa using pySorted_perm_aux lt l []

theorem stableInsert_pairwise {α : Type} (lt : α → α → Bool)
    (htrans : ∀ a b c, lt a b = true → lt b c = true → lt a c = true)
    (hasymm : ∀ a b, lt a b = true → lt b a = false) (x : α) :
    ∀ l, l.Pairwise (fun a b => lt b a = false) →
      (stableInsert lt x l).Pairwise (fun a b => lt b a = false) := by
  intro l
  induction l with
  | nil => intro _; simp [stableInsert]
  | cons y ys ih =>
    intro hp
    rcases List.pairwise_cons.mp hp with ⟨hy, hys⟩
    by_cases h : lt x y
    · rw [stableInsert, if_pos h]
      refine List.pairwise_cons.mpr ⟨?_, hp⟩
      intro z hz
      rcases List.mem_cons.mp hz with rfl | hz
      · exact hasymm x z h
      · cases h0 : lt z x
        · rfl
        · have : lt z y = true := htrans z x y h0 h
          rw [hy z hz] at this
          exact absurd this (by simp)
    · rw [stableInsert, if_neg h]
      refine List.pairwise_cons.mpr ⟨?_, ih hys⟩
      intro z hz
      have hz' : z ∈ x :: ys := (stableInsert_perm lt x ys).subset hz
      rcases List.mem_cons.mp hz' with rfl | hz'
      · exact Bool.eq_false_iff.mpr (fun h0 => h (by simpa using h0))
      · exact hy z hz'

theorem pySorted_pairwise {α : Type} (lt : α → α → Bool)
    (htrans : ∀ a b c, lt a b = true → lt b c = true → lt a c = true)
    (hasymm : ∀ a b, lt a b = true → lt b a = false) (l : List α) :
    (pySorted lt l).Pairwise (fun a b => lt b a = false) := by
  suffices h : ∀ (l acc : List α),
      acc.Pairwise (fun a b => lt b a = false) →
      (l.foldl (fun a x => stableInsert lt x a) acc).Pairwise
        (fun a b => lt b a = false) by
    exact h l [] (by simp)
  intro l
  induction l with
  | nil => intro acc hacc; exact hacc
  | cons x t ih =>
    intro acc hacc
    rw [List.foldl_cons]
    exact ih _ (stableInsert_pairwise lt htrans hasymm x acc hacc)

theorem eq_of_perm_of_pairwise {α : Type} (S : α → α → Prop)
    (hasymm : ∀ a b, S a b → ¬S b a) :
    ∀ l1 l2 : List α, l1.Perm l2 → l1.Pairwise S → l2.Pairwise S →
      l1 = l2 := by
  intro l1
  induction l1 with
  | nil =>
    intro l2 hp _ _
    exact (hp.symm.eq_nil).symm
  | cons a t1 ih =>
    intro l2 hp hP1 hP2
    cases l2 with
    | nil => exact absurd hp.eq_nil (by simp)
    | cons b t2 =>
      by_cases hab : a = b
      · subst hab
        rw [ih t2 hp.cons_inv (List.pairwise_cons.mp hP1).2
          (List.pairwise_cons.mp hP2).2]
      · have ha2 : a ∈ t2 := by
          have : a ∈ b :: t2 := hp.subset (List.mem_cons_self a t1)
          rcases List.mem_cons.mp this with h0 | h0
          · exact absurd h0 hab
          · exact h0
        have hb1 : b ∈ t1 := by
          have : b ∈ a :: t1 := hp.symm.subset (List.mem_cons_self b t2)
          rcases List.mem_cons.mp this with h0 | h0
          · exact absurd h0.symm hab
          · exact h0
        have hSab : S a b := (List.pairwise_cons.mp hP1).1 b hb1
        have hSba : S b a := (List.pairwise_cons.mp hP2).1 a ha2
        exact absurd hSba (hasymm a b hSab)

theorem specPatLt_eq_patternLt (p q : String) :
    specPatLt p q = patternLt p q := by
  unfold specPatLt patternLt
  by_cases hp2 : p == "*"
  · have : p = "*" := beq_iff_eq.mp hp2
    subst this
    by_cases hq2 : q == "*"
    · have : q = "*" := beq_iff_eq.mp hq2
      subst this
      simp
    · simp [hq2]
  · by_cases hq2 : q == "*"
    · have hp : p ≠ "*" := fun h => hp2 (beq_iff_eq.mpr h)
      simp [hp2, hq2, hp]
    · by_cases hps : pyStartswith p "*" <;> by_cases hqs : pyStartswith q "*" <;>
        simp [hp2, hq2, hps, hqs]

/-- C6: after the load-time sort the filter table satisfies the spec's
ordering — the literal `*` last, wildcard-prefixed patterns after
non-wildcard-prefixed ones, remaining ties lexicographic (the Pairwise
clause, stated over the spec's comparator) — and two tables holding the
same rules in different declaration orders sort to the same table. -/
theorem C6_sort_canonical (l1 l2 : List Rule) (hperm : l1.Perm l2)
    (hnd : l1.Pairwise (fun a b => a.pattern ≠ b.pattern)) :
    sortFilters l1 = sortFilters l2 ∧
      (sortFilters l1).Pairwise
        (fun a b => specPatLt a.pattern b.pattern = true) := by
  have htrans : ∀ a b c : Rule, patternLt a.pattern b.pattern = true →
      patternLt b.pattern c.pattern = true →
      patternLt a.pattern c.pattern = true :=
    fun a b c h1 h2 => patternLt_trans _ _ _ h1 h2
  have hasymm : ∀ a b : Rule, patternLt a.pattern b.pattern = true →
      patternLt b.pattern a.pattern = false :=
    fun a b h => patternLt_asymm _ _ h
  have hsymmNe : ∀ {a b : Rule}, a.pattern ≠ b.pattern → b.pattern ≠ a.pattern :=
    fun h => h.symm
  have hperm1 : (sortFilters l1).Perm l1 := pySorted_perm _ l1
  have hperm2 : (sortFilters l2).Perm l2 := pySorted_perm _ l2
  have hnd2 : l2.Pairwise (fun a b => a.pattern ≠ b.pattern) :=
    (List.Perm.pairwise_iff hsymmNe hperm).mp hnd
  have hstrict : ∀ l : List Rule, l.Pairwise (fun a b => a.pattern ≠ b.pattern) →
      (sortFilters l).Pairwise
        (fun a b => patternLt a.pattern b.pattern = true) := by
    intro l hl
    have hs : (sortFilters l).Pairwise
        (fun a b : Rule => patternLt b.pattern a.pattern = false) :=
      pySorted_pairwise _ htrans hasymm l
    have hn : (sortFilters l).Pairwise (fun a b => a.pattern ≠ b.pattern) :=
      (List.Perm.pairwise_iff hsymmNe (pySorted_perm _ l)).mpr hl
    refine (hs.and hn).imp ?_
    rintro a b ⟨hfa, hne⟩
    rcases patternLt_total a.pattern b.pattern hne with h | h
    · exact h
    · rw [hfa] at h
      exact absurd h (by simp)
  have hstrict1 := hstrict l1 hnd
  have hstrict2 := hstrict l2 hnd2
  have hasymmS : ∀ a b : Rule, patternLt a.pattern b.pattern = true →
      ¬patternLt b.pattern a.pattern = true := by
    intro a b h hc
    rw [patternLt_asymm _ _ h] at hc
    exact absurd hc (by simp)
  constructor
  · exact eq_of_perm_of_pairwise _ hasymmS (sortFilters l1) (sortFilters l2)
      (hperm1.trans (hperm.trans hperm2.symm)) hstrict1 hstrict2
  · exact hstrict1.imp (fun h => by rwa [specPatLt_eq_patternLt])

/-- Witness for C6 at two concrete declaration orders of one rule
set. -/
theorem C6_sort_canonical_witness :
    (sortFilters [⟨"*", ["gzip"]⟩, ⟨"vendor/*.js", ["no-terser"]⟩, ⟨"*.js", ["terser"]⟩]
      = sortFilters [⟨"*.js", ["terser"]⟩, ⟨"vendor/*.js", ["no-terser"]⟩, ⟨"*", ["gzip"]⟩]) ∧
    (sortFilters [⟨"*", ["gzip"]⟩, ⟨"vendor/*.js", ["no-terser"]⟩, ⟨"*.js", ["terser"]⟩]).Pairwise
      (fun a b => specPatLt a.pattern b.pattern = true) :=
  C6_sort_canonical
    [⟨"*", ["gzip"]⟩, ⟨"vendor/*.js", ["no-terser"]⟩, ⟨"*.js", ["terser"]⟩]
    [⟨"*.js", ["terser"]⟩, ⟨"vendor/*.js", ["no-terser"]⟩, ⟨"*", ["gzip"]⟩]
    (by decide) (by decide)

end Frogfs
